import Mathlib

/-!
Verification development for the stm_rs repository.

The embedding covers the two cores of the design: the scientific numeric
input widget (src/native/scientificspinbox.rs together with the cursor of
src/native/scientific_text_input/cursor.rs) and the job/task queue state
machine (src/main.rs with src/core/task.rs).

Modelling conventions:
* `f64` significands are modelled as `ℚ` (the algorithms only add, subtract,
  multiply and divide by powers of ten, so the algebraic structure is what
  matters; rounding of binary floating point is out of scope).
* `i8`/`i32` exponents and positions are modelled as `ℤ`; all values staying
  far from the width bounds in every statement below, wrap-around does not
  arise.  `usize` indices are `ℕ`; where the Rust code can underflow or index
  out of range (a panic), the Lean model returns `none`.
* Grapheme clusters are modelled as `Char`: every string the widget ever
  displays ("-123.456 µV" and friends) consists of one-code-point clusters.
  Rust's `char::is_numeric` is modelled as the decimal-digit test, which
  agrees with it on every character that occurs in those strings.
-/

namespace StmRs

/-- Modelled from the spec: `GraphemeBuffer`/`Value`
(src/native/scientific_text_input/value.rs is not present under src/; §3 and
§4.1 of the design document describe it as an ordered sequence of grapheme
clusters with `length` the count of graphemes).  Only the container itself is
spec-modelled; every operation proved about below lives in files that are
present in the source. -/
structure Value where
  graphemes : List Char
deriving DecidableEq

/-- `Value::len`: the number of grapheme clusters. -/
def Value.len (v : Value) : ℕ :=
  v.graphemes.length

/-- Rust `char::is_numeric`, restricted to the characters that can occur in
the widget's formatted values (digits, sign, dot, space, metric prefixes and
unit letters), on which it coincides with the decimal-digit test. -/
def isNumeric (c : Char) : Bool :=
  c.isDigit

/-- `cursor::State` from src/native/scientific_text_input/cursor.rs: a caret
(`Index`) or a possibly unordered selection. -/
inductive CState where
  | Index (index : ℕ)
  | Selection (start : ℕ) (stop : ℕ)
deriving DecidableEq

/-- `Cursor::state` (cursor.rs lines 35-49): clamp the stored indices to the
buffer length and collapse an empty selection to a caret. -/
def cursor_state (c : CState) (v : Value) : CState :=
  match c with
  | .Index index => .Index (Nat.min index v.len)
  | .Selection start stop =>
    let s := Nat.min start v.len
    let e := Nat.min stop v.len
    if s = e then .Index s else .Selection s e

/-- `Cursor::selection` (cursor.rs lines 54-59): the normalization accessor,
returning the clamped span as an ordered `(min, max)` pair. -/
def cursor_selection (c : CState) (v : Value) : Option (ℕ × ℕ) :=
  match cursor_state c v with
  | .Selection start stop => some (Nat.min start stop, Nat.max start stop)
  | _ => none

/-- `Cursor::select_range` (cursor.rs lines 61-67). -/
def select_range (start stop : ℕ) : CState :=
  if start = stop then .Index start else .Selection start stop

/-- `Cursor::select_left` (cursor.rs lines 69-93), written with explicit fuel
so that it is structurally recursive and fully evaluable.  The source
function, after tentatively turning a caret into the one-grapheme selection
to its left, calls itself once more; `select_left_fuel_stable` below proves
that the recursion depth is at most one, so the fuel is not load-bearing.
All no-move paths return the (already mutated) stored state `c`, exactly as
the `_ => {}` and empty-else paths of the source leave `self.state` alone.
The grapheme read `value.graphemes[start.min(end) - 1]` is guarded by
`end > 0 && start > 0`, which keeps it in range, so `getD` never takes its
default. -/
def select_left_go : ℕ → CState → Value → CState
  | 0, c, _ => c
  | fuel + 1, c, v =>
    match cursor_state c v with
    | .Index index =>
      if index > 0 then
        select_left_go fuel (.Selection (index - 1) index) v
      else c
    | .Selection start stop =>
      if stop > 0 ∧ start > 0 then
        if isNumeric (v.graphemes.getD (Nat.min start stop - 1) ' ') then
          select_range (start - 1) (stop - 1)
        else if stop > 1 ∧ start > 1 then
          select_range (start - 2) (stop - 2)
        else c
      else c

/-- `Cursor::select_left`: two units of fuel suffice (see
`select_left_fuel_stable`). -/
def select_left (c : CState) (v : Value) : CState :=
  select_left_go 2 c v

/-- `Cursor::select_right` (cursor.rs lines 95-122), with the same fuel
presentation.  The guards `index < value.len() - 1` and
`end <= value.len() - 1` evaluate `value.len() - 1` on `usize`, which
underflows when the buffer is empty: that panic is modelled by `none`.
The lookahead read `value.graphemes[start.min(end) + 1]` is modelled with
`get?`, so an out-of-range read would also surface as `none`.  (The
comparisons against `value.len() - 2` are reached only when the selection
endpoints are distinct and at most `len - 1`, which forces `len ≥ 2`, so on
those paths `ℕ` truncation agrees with `usize` arithmetic.) -/
def select_right_go : ℕ → CState → Value → Option CState
  | 0, c, _ => some c
  | fuel + 1, c, v =>
    match cursor_state c v with
    | .Index index =>
      if v.len = 0 then none
      else if index < v.len - 1 then
        select_right_go fuel (.Selection index (index + 1)) v
      else some c
    | .Selection start stop =>
      if v.len = 0 then none
      else if stop ≤ v.len - 1 then
        if start ≤ v.len - 1 then
          match v.graphemes.get? (Nat.min start stop + 1) with
          | none => none
          | some g =>
            if isNumeric g then some (select_range (start + 1) (stop + 1))
            else if stop < v.len - 2 ∧ start < v.len - 2 then
              some (select_range (start + 2) (stop + 2))
            else some c
        else some c
      else some c

/-- `Cursor::select_right`: two units of fuel suffice (see
`select_right_fuel_stable`). -/
def select_right (c : CState) (v : Value) : Option CState :=
  select_right_go 2 c v

/-! ## The scientific spin box (src/native/scientificspinbox.rs) -/

/-- `ExponentialNumber` (scientificspinbox.rs lines 25-42): a significand
(`f64`, modelled as `ℚ`) together with an exponent (`i8`, modelled as `ℤ`). -/
structure ExponentialNumber where
  significand : ℚ
  exponent : ℤ
deriving DecidableEq

/-- `ExponentialNumber::to_f64`: `significand * 10^exponent`. -/
def ExponentialNumber.to_f64 (x : ExponentialNumber) : ℚ :=
  x.significand * (10 : ℚ) ^ x.exponent

/-- `Bounds` (scientificspinbox.rs lines 44-88). -/
structure Bounds where
  lower : ExponentialNumber
  upper : ExponentialNumber
deriving DecidableEq

/-- `Bounds::clamp` (scientificspinbox.rs lines 77-83), via
`num_traits::clamp`: below the lower bound gives the lower bound, above the
upper gives the upper, otherwise the value itself. -/
def Bounds.clamp (b : Bounds) (value : ℚ) : ℚ :=
  if value < b.lower.to_f64 then b.lower.to_f64
  else if value > b.upper.to_f64 then b.upper.to_f64
  else value

/-- `Bounds::in_bounds` (scientificspinbox.rs lines 85-87). -/
def Bounds.in_bounds (b : Bounds) (value : ℚ) : Bool :=
  value == b.clamp value

/-- The three bound mutators of `ScientificSpinBox`
(`min`/`max`/`bounds`, scientificspinbox.rs lines 163-188), as updates on the
stored `Bounds`. -/
inductive BoundsUpdate where
  | SetMin (m : ExponentialNumber)
  | SetMax (m : ExponentialNumber)
  | SetBounds (nb : Bounds)

/-- One mutator application: each update is guarded exactly as in the source
and otherwise leaves the stored bounds unchanged. -/
def apply_update (b : Bounds) (u : BoundsUpdate) : Bounds :=
  match u with
  | .SetMin m => if m.to_f64 ≤ b.upper.to_f64 then { b with lower := m } else b
  | .SetMax m => if m.to_f64 ≥ b.lower.to_f64 then { b with upper := m } else b
  | .SetBounds nb => if nb.lower.to_f64 ≤ nb.upper.to_f64 then nb else b

/-- `get_step` (scientificspinbox.rs lines 741-753): join the graphemes, cut
at the first space and then at the first dot, count the remaining integer
digits, lower the count by one when the position precedes the cut, and return
that power of ten. -/
def get_step (pos : ℕ) (v : Value) : ℚ :=
  let str_val := (v.graphemes.takeWhile (fun c => c ≠ ' ')).takeWhile (fun c => c ≠ '.')
  let decimal_pos : ℤ := if (pos : ℤ) < (str_val.length : ℤ) then (str_val.length : ℤ) - 1 else (str_val.length : ℤ)
  (10 : ℚ) ^ (decimal_pos - (pos : ℤ))

/-- The renormalization step inside `increase_val` (scientificspinbox.rs
lines 329-340): only an overflow upward (`new_sig >= 1000`) divides, and any
magnitude strictly between 0 and 1 multiplies — with no guard on the
exponent. -/
def renorm_inc (new_sig : ℚ) (exp : ℤ) : ℚ × ℤ :=
  if new_sig ≥ 1000 then (new_sig / 1000, exp + 3)
  else if (-1 < new_sig ∧ new_sig < 0) ∨ (0 < new_sig ∧ new_sig < 1) then
    (new_sig * 1000, exp - 3)
  else (new_sig, exp)

/-- The renormalization step inside `decrease_val` (scientificspinbox.rs
lines 271-282): only an overflow downward (`new_sig <= -1000`) divides, and
only a positive magnitude strictly between 0 and 1 multiplies — guarded by
`exp - 3 != -12`. -/
def renorm_dec (new_sig : ℚ) (exp : ℤ) : ℚ × ℤ :=
  if new_sig ≤ -1000 then (new_sig / 1000, exp + 3)
  else if new_sig < 1 ∧ new_sig > 0 ∧ exp - 3 ≠ -12 then
    (new_sig * 1000, exp - 3)
  else (new_sig, exp)

/-- The digit position targeted by a step: the smaller endpoint of the
current selection, with `(0, 1)` as the default when there is none
(`selection(...).unwrap_or_else(|| (0, 1))` then `start.min(end)`). -/
def sel_pos (sel : Option (ℕ × ℕ)) : ℕ :=
  let se := sel.getD (0, 1)
  Nat.min se.1 se.2

/-- Whether the grapheme under a position exists and is numeric (the test
`value.graphemes[pos].chars().next().unwrap().is_numeric()`; a missing
grapheme is the out-of-range panic, which no statement below reaches). -/
def numeric_at (v : Value) (pos : ℕ) : Bool :=
  match v.graphemes.get? pos with
  | some g => isNumeric g
  | none => false

/-- `ScientificSpinBox::increase_val` (scientificspinbox.rs lines 311-366),
as the emitted `ExponentialNumber` (the argument of `shell.publish`): `none`
is the out-of-range grapheme panic.  The cursor side effects (the
`select_left` calls for caret continuity) do not affect the emitted value and
are not part of this function. -/
def increase_val (bounds : Bounds) (val : ExponentialNumber)
    (sel : Option (ℕ × ℕ)) (v : Value) : Option ExponentialNumber :=
  let pos := sel_pos sel
  match v.graphemes.get? pos with
  | none => none
  | some g =>
    if isNumeric g then
      let p := renorm_inc (val.significand + get_step pos v) val.exponent
      let new_val : ExponentialNumber := ⟨p.1, p.2⟩
      if bounds.in_bounds new_val.to_f64 then some new_val else some bounds.upper
    else
      let new_exp := val.exponent + 3
      let nv : ExponentialNumber := ⟨val.significand, new_exp⟩
      if ¬ bounds.in_bounds nv.to_f64 then some bounds.upper
      else if new_exp > bounds.upper.exponent then some ⟨val.significand, bounds.upper.exponent⟩
      else some nv

/-- `ScientificSpinBox::decrease_val` (scientificspinbox.rs lines 253-307),
as the emitted `ExponentialNumber`. -/
def decrease_val (bounds : Bounds) (val : ExponentialNumber)
    (sel : Option (ℕ × ℕ)) (v : Value) : Option ExponentialNumber :=
  let pos := sel_pos sel
  match v.graphemes.get? pos with
  | none => none
  | some g =>
    if isNumeric g then
      let p := renorm_dec (val.significand - get_step pos v) val.exponent
      let new_val : ExponentialNumber := ⟨p.1, p.2⟩
      if bounds.in_bounds new_val.to_f64 then some new_val else some bounds.lower
    else
      let new_exp := val.exponent - 3
      let nv : ExponentialNumber := ⟨val.significand, new_exp⟩
      if ¬ bounds.in_bounds nv.to_f64 then some bounds.lower
      else if new_exp < -12 then some ⟨val.significand, -12⟩
      else some nv

/-- `f64::from_str`, modelled on plain decimal notation (an optional sign,
digits, at most one dot — the only shapes that arise from editing the
`Display` rendering of a significand; any other character, in particular a
non-ASCII numeric keypress, fails to parse, as it does in Rust). -/
def parse_decimal (s : List Char) : Option ℚ :=
  let ip := s.takeWhile (fun c => c ≠ '.')
  let rest := s.drop ip.length
  if ip.all Char.isDigit then
    match rest with
    | [] => if ip ≠ [] then some (ip.foldl (fun n c => 10 * n + ((c.toNat : ℚ) - 48)) 0) else none
    | '.' :: frac =>
      if frac.all Char.isDigit ∧ (ip ≠ [] ∨ frac ≠ []) then
        some (ip.foldl (fun n c => 10 * n + ((c.toNat : ℚ) - 48)) 0
          + (frac.foldl (fun n c => 10 * n + ((c.toNat : ℚ) - 48)) 0) / (10 : ℚ) ^ frac.length)
      else none
    | _ => none
  else none

/-- `f64::from_str` on a possibly signed decimal string. -/
def parse_f64 (s : List Char) : Option ℚ :=
  match s with
  | '-' :: rest => (parse_decimal rest).map (fun q => -q)
  | '+' :: rest => parse_decimal rest
  | _ => parse_decimal s

/-- The bounds check and commit that ends the `CharacterReceived` handler:
the parsed value is committed iff it lies in
`bounds.lower.significand ..= bounds.upper.significand`. -/
def commit_significand (bounds : Bounds) (r : Option ℚ) : Option ℚ :=
  match r with
  | some val =>
    if bounds.lower.significand ≤ val ∧ val ≤ bounds.upper.significand then some val else none
  | none => none

/-- The string edit performed by the `CharacterReceived` handler
(scientificspinbox.rs lines 534-559) on the decimal rendering of the
significand: at a caret the typed character is inserted (except that a zero
significand is replaced outright), and a selection is replaced only when both
stored endpoints are strictly below the string length. -/
def typed_edit (sig : ℚ) (s : List Char) (cst : CState) (c : Char) : List Char :=
  match cursor_state cst (Value.mk s) with
  | .Index idx => if sig = 0 then [c] else s.insertIdx idx c
  | .Selection start stop =>
    if start < s.length ∧ stop < s.length then
      s.take (Nat.min start stop) ++ [c] ++ s.drop (Nat.max start stop)
    else s

/-- The `CharacterReceived` arm of `ScientificSpinBox::on_event`
(scientificspinbox.rs lines 534-583), as a function from the current
significand `sig`, its decimal rendering `s`, the stored cursor and the typed
numeric character to the committed significand; `none` is the
`event::Status::Ignored` outcome in which nothing is committed and the buffer
is left unchanged. -/
def typed_char (bounds : Bounds) (sig : ℚ) (s : List Char) (cst : CState) (c : Char) : Option ℚ :=
  commit_significand bounds (parse_f64 (typed_edit sig s cst c))

/-- Claim-mirror of the typed-character handler, following the words of the
specification: the character always replaces the selected span (or is
inserted at the caret), and the result is committed iff it parses and lies
within the significand bounds.  It exists only to be compared with
`typed_char`. -/
def typed_char_claimed (bounds : Bounds) (s : List Char) (cst : CState) (c : Char) : Option ℚ :=
  let edited :=
    match cursor_state cst (Value.mk s) with
    | .Index idx => s.insertIdx idx c
    | .Selection start stop => s.take (Nat.min start stop) ++ [c] ++ s.drop (Nat.max start stop)
  commit_significand bounds (parse_f64 edited)

/-- Claim-mirror of the renormalization rule as the specification words it:
divide whenever `|new_sig| ≥ 1000`, multiply whenever `0 < |new_sig| < 1` and
the exponent is not already at its minimum `-12`.  It exists only to be
compared with `renorm_inc`/`renorm_dec`. -/
def renorm_claimed (new_sig : ℚ) (exp : ℤ) : ℚ × ℤ :=
  if |new_sig| ≥ 1000 then (new_sig / 1000, exp + 3)
  else if 0 < |new_sig| ∧ |new_sig| < 1 ∧ exp ≠ -12 then (new_sig * 1000, exp - 3)
  else (new_sig, exp)

/-! ## The job/task queue (src/main.rs with src/core/task.rs) -/

/-- `TaskState` (core/task.rs). -/
inductive TaskState where
  | Idle
  | Running
  | Completed
  | Failed (reason : String)
deriving DecidableEq

/-- `Task` (core/task.rs): the payload is reduced to its length, which is
the only aspect of it the queue logic inspects (`content()[0]` requires a
non-empty payload). -/
structure Task where
  content : ℕ
  description : String
  index : ℕ
  state : TaskState
deriving DecidableEq

/-- `Task::is_idle`. -/
def Task.is_idle (t : Task) : Bool :=
  match t.state with
  | TaskState.Idle => true
  | _ => false

/-- `TaskList` (core/task.rs): the jobs and the current-job cursor. -/
structure TaskList where
  tasks : List Task
  current_task : Option ℕ
deriving DecidableEq

/-- `TaskList::default`: empty queue, no current job. -/
def TaskList.empty : TaskList :=
  ⟨[], none⟩

/-- The messages of `R9Control::update` (main.rs lines 128-276) that can
touch the task list.  `AddToQueue` carries the number of images the sweep
parameters produce and the chosen name; every other message of the
application leaves the task list untouched and is represented by `Other`
(the `TaskMessage`/`TaskCompleted`/`TaskFailed` messages all fall through to
the default arm). -/
inductive Msg where
  | AddToQueue (images : ℕ) (name : String)
  | PlayPressed
  | StopPressed
  | TaskRunning (idx : ℕ)
  | Other
deriving DecidableEq

/-- The task-list component of `R9Control::update` (main.rs lines 128-276).
`none` models a panic: an out-of-range `tasks[idx]` index, or
`content()[0]` on an empty payload inside the `PlayPressed` arm.  The
backend dispatch of `PlayPressed` (the Julia channel) does not change the
task list and is omitted. -/
def update (s : TaskList) (msg : Msg) : Option TaskList :=
  match msg with
  | .AddToQueue images name =>
    let id := s.tasks.length
    some { tasks := s.tasks ++ [⟨images, name, id, TaskState.Idle⟩],
           current_task := if s.current_task = none then some 0 else s.current_task }
  | .TaskRunning idx =>
    match s.tasks.get? idx with
    | none => none
    | some t => some { s with tasks := s.tasks.set idx { t with state := TaskState.Running } }
  | .PlayPressed =>
    match s.current_task with
    | none => some s
    | some id =>
      match s.tasks.get? id with
      | none => none
      | some t =>
        if t.is_idle then
          if 0 < t.content then
            some { s with tasks := s.tasks.set id { t with state := TaskState.Running } }
          else none
        else some s
  | .StopPressed =>
    match s.current_task with
    | none => some s
    | some id =>
      match s.tasks.get? id with
      | none => none
      | some t =>
        some { tasks := s.tasks.set id { t with state := TaskState.Failed ("Interrupted by user.") },
               current_task := some (Nat.min (id + 1) (s.tasks.length - 1)) }
  | .Other => some s

/-- A sequence of update messages applied to a task list, stopping at the
first panic. -/
def run_msgs (s : TaskList) (ms : List Msg) : Option TaskList :=
  ms.foldl (fun acc m => acc.bind (fun st => update st m)) (some s)

/-- At most one job is in the `Running` state. -/
def at_most_one_running (s : TaskList) : Prop :=
  ∀ j1 j2 t1 t2, s.tasks.get? j1 = some t1 → s.tasks.get? j2 = some t2 →
    t1.state = TaskState.Running → t2.state = TaskState.Running → j1 = j2

/-- The invariant that drives the single-active-job argument: every `Running`
job sits at the current index, and the current index is valid. -/
def tl_inv (s : TaskList) : Prop :=
  (∀ j t, s.tasks.get? j = some t → t.state = TaskState.Running → s.current_task = some j) ∧
  (∀ id, s.current_task = some id → id < s.tasks.length)

/-- The stepped-and-renormalized value `new_val` computed by the numeric
branch of `increase_val`, before the bounds check. -/
def inc_candidate (val : ExponentialNumber) (sel : Option (ℕ × ℕ)) (v : Value) :
    ExponentialNumber :=
  let p := renorm_inc (val.significand + get_step (sel_pos sel) v) val.exponent
  ⟨p.1, p.2⟩

/-- The stepped-and-renormalized value `new_val` computed by the numeric
branch of `decrease_val`, before the bounds check. -/
def dec_candidate (val : ExponentialNumber) (sel : Option (ℕ × ℕ)) (v : Value) :
    ExponentialNumber :=
  let p := renorm_dec (val.significand - get_step (sel_pos sel) v) val.exponent
  ⟨p.1, p.2⟩

/-! ## Concrete instances used in witnesses and counterexamples -/

/-- The rendering of `50.0 · 10⁻⁹ m`: `"50.000 nm"`. -/
def v50 : Value := ⟨("50.000 nm").toList⟩

/-- The rendering of `60.0 · 10⁻⁹ m`: `"60.000 nm"`. -/
def v60 : Value := ⟨("60.000 nm").toList⟩

/-- The rendering of `999.0 V` (the exponent-0 prefix is a second space). -/
def v999 : Value := ⟨("999.000  V").toList⟩

/-- The rendering of `5.0 V`. -/
def v5 : Value := ⟨("5.000  V").toList⟩

/-- The rendering of `99.0 V`. -/
def v99 : Value := ⟨("99.000  V").toList⟩

/-- The rendering of `109.0 V`. -/
def v109 : Value := ⟨("109.000  V").toList⟩

/-- The rendering of `1.5 · 10⁻⁹ V`: `"1.500 nV"`. -/
def v15 : Value := ⟨("1.500 nV").toList⟩

/-- The empty buffer. -/
def vEmpty : Value := ⟨[]⟩

/-- The voltage bounds `[0 V, 5 V]` of the clamp-emission example. -/
def B_volt5 : Bounds := ⟨⟨0, 0⟩, ⟨5, 0⟩⟩

/-- Wide bounds `[-5·10⁶, 5·10⁶]` that never clamp in the examples below. -/
def B_wide : Bounds := ⟨⟨-5, 6⟩, ⟨5, 6⟩⟩

/-- Wide significand-level bounds `[-1000, 1000]`. -/
def B_sig : Bounds := ⟨⟨-1000, 0⟩, ⟨1000, 0⟩⟩

/-- The scan-size bounds of main.rs: `[210 pm, 2.1 µm]`. -/
def B_size : Bounds := ⟨⟨210, -12⟩, ⟨21 / 10, -6⟩⟩

/-- The decimal rendering of the significand `50.0`, `"50"`. -/
def s50 : List Char := ("50").toList

/-- A one-job queue whose job is running at index 0. -/
def tlOne : TaskList := ⟨[⟨1, "a", 0, TaskState.Running⟩], some 0⟩

/-- A one-job queue whose job is still idle at index 0. -/
def tlIdle : TaskList := ⟨[⟨1, "a", 0, TaskState.Idle⟩], some 0⟩

/-- The message sequence that drives two jobs into `Running` through the
unconditional `TaskRunning` handler. -/
def msgsTwoRunning : List Msg :=
  [Msg.AddToQueue 1 ("a"), Msg.AddToQueue 1 ("b"), Msg.TaskRunning 0, Msg.TaskRunning 1]

/-- The state `msgsTwoRunning` reaches: both jobs `Running`. -/
def tlTwoRunning : TaskList :=
  ⟨[⟨1, "a", 0, TaskState.Running⟩, ⟨1, "b", 1, TaskState.Running⟩], some 0⟩

/-! ## Cursor lemmas -/

lemma cursor_state_index_le {c : CState} {v : Value} {i : ℕ}
    (h : cursor_state c v = .Index i) : i ≤ v.len := by
  cases c with
  | Index j =>
    simp only [cursor_state, CState.Index.injEq] at h
    exact h ▸ Nat.min_le_right j v.len
  | Selection s e =>
    simp only [cursor_state] at h
    split at h
    · simp only [CState.Index.injEq] at h
      exact h ▸ Nat.min_le_right s v.len
    · exact absurd h (by simp)

lemma cursor_state_selection_facts {c : CState} {v : Value} {s e : ℕ}
    (h : cursor_state c v = .Selection s e) :
    s ≤ v.len ∧ e ≤ v.len ∧ s ≠ e := by
  cases c with
  | Index j => simp [cursor_state] at h
  | Selection a b =>
    simp only [cursor_state] at h
    split at h
    · simp at h
    · rename_i hne
      simp only [CState.Selection.injEq] at h
      obtain ⟨hs, he⟩ := h
      subst hs; subst he
      exact ⟨Nat.min_le_right _ _, Nat.min_le_right _ _, hne⟩

/-- The tentative one-step selection made by `select_left` from a caret is
read back unchanged by `Cursor::state`. -/
lemma cursor_state_tentative_left {c : CState} {v : Value} {i : ℕ}
    (h : cursor_state c v = .Index i) (hi : 0 < i) :
    cursor_state (.Selection (i - 1) i) v = .Selection (i - 1) i := by
  have hle := cursor_state_index_le h
  simp only [cursor_state]
  have h1 : Nat.min (i - 1) v.len = i - 1 := Nat.min_eq_left (by omega)
  have h2 : Nat.min i v.len = i := Nat.min_eq_left hle
  rw [h1, h2, if_neg (by omega)]

/-- The tentative one-step selection made by `select_right` from a caret is
read back unchanged by `Cursor::state`. -/
lemma cursor_state_tentative_right {c : CState} {v : Value} {i : ℕ}
    (h : cursor_state c v = .Index i) (hi : i < v.len - 1) :
    cursor_state (.Selection i (i + 1)) v = .Selection i (i + 1) := by
  have hle := cursor_state_index_le h
  simp only [cursor_state]
  have h1 : Nat.min i v.len = i := Nat.min_eq_left (by omega)
  have h2 : Nat.min (i + 1) v.len = i + 1 := Nat.min_eq_left (by omega)
  rw [h1, h2, if_neg (by omega)]

/-- The recursion of `select_left` has depth at most one: any fuel beyond two
gives the same answer, so `select_left` is the source function. -/
lemma select_left_fuel_stable (n : ℕ) (c : CState) (v : Value) :
    select_left_go (n + 2) c v = select_left_go 2 c v := by
  cases hst : cursor_state c v with
  | Index i =>
    by_cases hi : i > 0
    · have htent := cursor_state_tentative_left hst hi
      simp only [select_left_go, hst, if_pos hi, htent]
    · simp only [select_left_go, hst, if_neg hi]
  | Selection s e =>
    simp only [select_left_go, hst]

/-- The recursion of `select_right` has depth at most one. -/
lemma select_right_fuel_stable (n : ℕ) (c : CState) (v : Value) :
    select_right_go (n + 2) c v = select_right_go 2 c v := by
  cases hst : cursor_state c v with
  | Index i =>
    by_cases h0 : v.len = 0
    · simp only [select_right_go, hst, if_pos h0]
    · by_cases hi : i < v.len - 1
      · have htent := cursor_state_tentative_right hst hi
        simp only [select_right_go, hst, if_neg h0, if_pos hi, htent]
      · simp only [select_right_go, hst, if_neg h0, if_neg hi]
  | Selection s e =>
    simp only [select_right_go, hst]

lemma min_plus_one_lt {s e len : ℕ} (h1 : s ≤ len - 1) (h2 : e ≤ len - 1)
    (hne : s ≠ e) (h0 : len ≠ 0) : Nat.min s e + 1 < len := by
  rcases Nat.lt_or_ge s e with h | h
  · have hm : Nat.min s e = s := Nat.min_eq_left h.le
    rw [hm]; omega
  · have hm : Nat.min s e = e := Nat.min_eq_right h
    rw [hm]; omega

/-- Any reachable `Selection` branch of `select_right` completes without a
panic once the two `len - 1` guards pass. -/
lemma select_right_go_selection_isSome {c : CState} {v : Value} {s e : ℕ} (n : ℕ)
    (hst : cursor_state c v = .Selection s e) (h0 : ¬ v.len = 0) :
    (select_right_go (n + 1) c v).isSome = true := by
  have hf := cursor_state_selection_facts hst
  simp only [select_right_go, hst, if_neg h0]
  by_cases he : e ≤ v.len - 1
  · rw [if_pos he]
    by_cases hs : s ≤ v.len - 1
    · rw [if_pos hs]
      have hg : Nat.min s e + 1 < v.graphemes.length :=
        min_plus_one_lt hs he hf.2.2 h0
      obtain ⟨g, hgg⟩ : ∃ g, v.graphemes.get? (Nat.min s e + 1) = some g :=
        ⟨_, List.get?_eq_get hg⟩
      rw [hgg]
      by_cases hn : isNumeric g = true
      · simp [hn]
      · by_cases hr : e < v.len - 2 ∧ s < v.len - 2
        · simp [hn, hr]
        · simp [hn, hr]
    · rw [if_neg hs]; simp
  · rw [if_neg he]; simp

/-! ## C9 and C10: cursor validity and `select_right` totality -/

/-- C9: `cursor.state(buffer)` never returns an index or selection endpoint
greater than the buffer length (indices are clamped on read); a stored
selection with `start == end` collapses to `Index`, both in `state` and in
`select_range`; and the normalization accessor `selection(buffer)` always
returns an ordered pair `(min, max)` with `min ≤ max ≤ len`, whatever the
stored order of `start` and `end`. -/
theorem C9_cursor_always_valid :
    (∀ c v, (match cursor_state c v with
      | CState.Index i => i ≤ v.len
      | CState.Selection s e => s ≤ v.len ∧ e ≤ v.len)) ∧
    (∀ s e v, s = e → cursor_state (CState.Selection s e) v = CState.Index (Nat.min s v.len)) ∧
    (∀ s e, s = e → select_range s e = CState.Index s) ∧
    (∀ c v a b, cursor_selection c v = some (a, b) → a ≤ b ∧ b ≤ v.len) := by
  refine ⟨?_, ?_, ?_, ?_⟩
  · intro c v
    cases h : cursor_state c v with
    | Index i => exact cursor_state_index_le h
    | Selection s e =>
      have hf := cursor_state_selection_facts h
      exact ⟨hf.1, hf.2.1⟩
  · intro s e v hse
    subst hse
    simp [cursor_state]
  · intro s e hse
    subst hse
    simp [select_range]
  · intro c v a b h
    unfold cursor_selection at h
    cases hst : cursor_state c v with
    | Index i => rw [hst] at h; exact absurd h (by simp)
    | Selection s e =>
      rw [hst] at h
      simp only [Option.some.injEq, Prod.mk.injEq] at h
      obtain ⟨ha, hb⟩ := h
      have hf := cursor_state_selection_facts hst
      subst ha; subst hb
      exact ⟨min_le_max, max_le hf.1 hf.2.1⟩

/-- Witness for C9 at concrete inputs: a stored index beyond the buffer is
clamped (12 on a 9-grapheme buffer reads as 9), `select_range` collapses an
empty span, and a reversed stored selection reads back ordered. -/
theorem C9_witness :
    cursor_state (CState.Selection 12 12) v50 = CState.Index 9 ∧
    select_range 4 4 = CState.Index 4 ∧
    (2 ≤ 7 ∧ 7 ≤ v50.len) := by
  refine ⟨?_, ?_, ?_⟩
  · have h := C9_cursor_always_valid.2.1 12 12 v50 rfl
    rw [h]; decide
  · exact C9_cursor_always_valid.2.2.1 4 4 rfl
  · exact C9_cursor_always_valid.2.2.2 (CState.Selection 7 2) v50 2 7 (by decide)

/-- C10: `select_right` is total on non-empty buffers — every index it
evaluates, including the lookahead `graphemes[start.min(end) + 1]`, stays in
range, so the computation returns a state rather than panicking; on the
empty buffer the guard evaluates `value.len() - 1`, which underflows unsigned
arithmetic, so the non-empty precondition is required for safety. -/
theorem C10_select_right_total :
    (∀ c v, 1 ≤ v.len → (select_right c v).isSome = true) ∧
    (∀ c v, v.len = 0 → select_right c v = none) := by
  constructor
  · intro c v hlen
    have h0 : ¬ v.len = 0 := by omega
    cases hst : cursor_state c v with
    | Index i =>
      by_cases hi : i < v.len - 1
      · have h1 : select_right c v = select_right_go 1 (CState.Selection i (i + 1)) v := by
          simp only [select_right, select_right_go, hst, if_neg h0, if_pos hi]
        rw [h1]
        exact select_right_go_selection_isSome 0 (cursor_state_tentative_right hst hi) h0
      · have h1 : select_right c v = some c := by
          simp only [select_right, select_right_go, hst, if_neg h0, if_neg hi]
        rw [h1]; rfl
    | Selection s e =>
      exact select_right_go_selection_isSome 1 hst h0
  · intro c v h0
    cases hst : cursor_state c v with
    | Index i =>
      simp only [select_right, select_right_go, hst, if_pos h0]
    | Selection s e =>
      exfalso
      have hf := cursor_state_selection_facts hst
      have h1 := hf.1
      have h2 := hf.2.1
      have h3 := hf.2.2
      omega

/-- Witness for C10: on the 9-grapheme buffer the computation completes, and
on the empty buffer it underflows. -/
theorem C10_witness :
    (1 ≤ v50.len ∧ (select_right (CState.Index 0) v50).isSome = true) ∧
    (vEmpty.len = 0 ∧ select_right (CState.Index 5) vEmpty = none) :=
  ⟨⟨by decide, C10_select_right_total.1 (CState.Index 0) v50 (by decide)⟩,
   ⟨by decide, C10_select_right_total.2 (CState.Index 5) vEmpty (by decide)⟩⟩

/-! ## C5: the `select_left` policy -/

/-- C5 (amended): `select_left` from `Index(0)` is a no-op.  From `Index(i)`
with `0 < i ≤ len` the function stores the tentative one-grapheme selection
`[i-1, i)` and re-evaluates: if the grapheme immediately left of the new
selection start (`graphemes[i-2]`) is numeric the selection is moved one
further step to `[i-2, i-1)`; if it is non-numeric and there is room
(`i ≥ 3`) it is moved two further steps to `[i-3, i-2)`; and if neither
condition holds the tentative selection `[i-1, i)` itself is left in place —
the cursor does **not** collapse back to the original caret index. -/
theorem C5_select_left_from_caret (v : Value) :
    select_left (CState.Index 0) v = CState.Index 0 ∧
    ∀ i, 0 < i → i ≤ v.len →
      select_left (CState.Index i) v =
        (if 2 ≤ i ∧ isNumeric (v.graphemes.getD (i - 2) ' ') = true then
          CState.Selection (i - 2) (i - 1)
        else if 3 ≤ i then CState.Selection (i - 3) (i - 2)
        else CState.Selection (i - 1) i) := by
  constructor
  · have h : cursor_state (CState.Index 0) v = CState.Index 0 := by
      simp [cursor_state]
    simp [select_left, select_left_go, h]
  · intro i h0 hle
    have hst : cursor_state (CState.Index i) v = CState.Index i := by
      simp only [cursor_state, CState.Index.injEq]
      exact Nat.min_eq_left hle
    have htent := cursor_state_tentative_left hst h0
    have h1 : select_left (CState.Index i) v = select_left_go 1 (CState.Selection (i - 1) i) v := by
      simp only [select_left, select_left_go, hst, if_pos h0]
    rw [h1]
    simp only [select_left_go, htent]
    by_cases hg : 2 ≤ i
    · rw [if_pos ⟨h0, (by omega : i - 1 > 0)⟩]
      have hmin : Nat.min (i - 1) i = i - 1 := Nat.min_eq_left (by omega)
      rw [hmin]
      have e1 : i - 1 - 1 = i - 2 := by omega
      rw [e1]
      by_cases hn : isNumeric (v.graphemes.getD (i - 2) ' ') = true
      · rw [if_pos hn, if_pos ⟨hg, hn⟩]
        simp only [select_range]
        rw [if_neg (by omega : ¬ i - 2 = i - 1)]
      · have hrhs : ¬ (2 ≤ i ∧ isNumeric (v.graphemes.getD (i - 2) ' ') = true) :=
          fun hx => hn hx.2
        rw [if_neg hn, if_neg hrhs]
        by_cases h3 : 3 ≤ i
        · have hroom : i > 1 ∧ i - 1 > 1 := ⟨by omega, by omega⟩
          rw [if_pos hroom, if_pos h3]
          have e2 : i - 1 - 2 = i - 3 := by omega
          rw [e2]
          simp only [select_range]
          rw [if_neg (by omega : ¬ i - 3 = i - 2)]
        · rw [if_neg (by omega : ¬ (i > 1 ∧ i - 1 > 1)), if_neg h3]
    · rw [if_neg (by omega : ¬ (i > 0 ∧ i - 1 > 0)),
        if_neg (by rintro ⟨h2, -⟩; omega), if_neg (by omega : ¬ 3 ≤ i)]

/-- C5 counterexample: from `Index(1)` on the buffer `"50.000 nm"` neither
re-evaluation condition holds (there is no grapheme at position `-1`), yet
the cursor ends as the tentative selection `[0, 1)` instead of collapsing
back to the original index `1`, contradicting the claimed no-op. -/
theorem C5_counterexample :
    select_left (CState.Index 1) v50 = CState.Selection 0 1 ∧
    select_left (CState.Index 1) v50 ≠ CState.Index 1 := by
  constructor
  · decide
  · decide

/-- Witness for C5 (amended) at `i = 2` on `"50.000 nm"`: the grapheme left
of the tentative selection start is the digit `5`, so the selection commits
one further step left to `[0, 1)`. -/
theorem C5_witness :
    0 < 2 ∧ 2 ≤ v50.len ∧ select_left (CState.Index 2) v50 = CState.Selection 0 1 := by
  refine ⟨by decide, by decide, ?_⟩
  have h := (C5_select_left_from_caret v50).2 2 (by decide) (by decide)
  rw [h]
  decide

/-! ## Spin box lemmas -/

lemma in_bounds_iff (b : Bounds) (q : ℚ) :
    b.in_bounds q = true ↔ b.lower.to_f64 ≤ q ∧ q ≤ b.upper.to_f64 := by
  unfold Bounds.in_bounds Bounds.clamp
  rw [beq_iff_eq]
  split_ifs with h1 h2
  · constructor
    · intro he; exact absurd he (ne_of_lt h1)
    · rintro ⟨hl, -⟩; exact absurd h1 (not_lt.2 hl)
  · constructor
    · intro he; exact absurd he (ne_of_gt h2)
    · rintro ⟨-, hu⟩; exact absurd h2 (not_lt.2 hu)
  · constructor
    · intro _; exact ⟨le_of_not_lt h1, le_of_not_lt h2⟩
    · intro _; rfl

/-- On a numeric grapheme, `increase_val` emits the stepped-and-renormalized
candidate when it is in bounds, and the upper bound otherwise. -/
lemma increase_val_numeric {B : Bounds} {val : ExponentialNumber}
    {sel : Option (ℕ × ℕ)} {v : Value}
    (hnum : numeric_at v (sel_pos sel) = true) :
    increase_val B val sel v =
      some (if B.in_bounds (inc_candidate val sel v).to_f64 then inc_candidate val sel v
        else B.upper) := by
  unfold numeric_at at hnum
  cases hg : v.graphemes.get? (sel_pos sel) with
  | none => rw [hg] at hnum; cases hnum
  | some g =>
    rw [hg] at hnum
    unfold increase_val inc_candidate
    simp only [hg, hnum, if_true]
    split_ifs <;> rfl

/-- On a numeric grapheme, `decrease_val` emits the stepped-and-renormalized
candidate when it is in bounds, and the lower bound otherwise. -/
lemma decrease_val_numeric {B : Bounds} {val : ExponentialNumber}
    {sel : Option (ℕ × ℕ)} {v : Value}
    (hnum : numeric_at v (sel_pos sel) = true) :
    decrease_val B val sel v =
      some (if B.in_bounds (dec_candidate val sel v).to_f64 then dec_candidate val sel v
        else B.lower) := by
  unfold numeric_at at hnum
  cases hg : v.graphemes.get? (sel_pos sel) with
  | none => rw [hg] at hnum; cases hnum
  | some g =>
    rw [hg] at hnum
    unfold decrease_val dec_candidate
    simp only [hg, hnum, if_true]
    split_ifs <;> rfl

lemma renorm_inc_id {x : ℚ} {e : ℤ} (h1 : ¬ x ≥ 1000)
    (h2 : ¬ ((-1 < x ∧ x < 0) ∨ (0 < x ∧ x < 1))) : renorm_inc x e = (x, e) := by
  unfold renorm_inc
  rw [if_neg h1, if_neg h2]

lemma renorm_dec_id {x : ℚ} {e : ℤ} (h1 : ¬ x ≤ -1000)
    (h2 : ¬ (x < 1 ∧ x > 0 ∧ e - 3 ≠ -12)) : renorm_dec x e = (x, e) := by
  unfold renorm_dec
  rw [if_neg h1, if_neg h2]

lemma commit_significand_some (B : Bounds) (q : ℚ) :
    commit_significand B (some q) =
      if B.lower.significand ≤ q ∧ q ≤ B.upper.significand then some q else none := rfl

/-! ## C1: renormalization of the stepping algorithm -/

/-- C1 (amended): the code renormalizes asymmetrically.  On increment the
significand is divided by 1000 (exponent +3) exactly when `new_sig ≥ 1000`
(a value at or below −1000 is left alone), and multiplied by 1000
(exponent −3) exactly when `0 < |new_sig| < 1`, with no minimum-exponent
guard.  On decrement it is divided exactly when `new_sig ≤ −1000`, and
multiplied exactly when `0 < new_sig < 1` (negative small values are left
alone) and the exponent is not −9 — the guard `exp − 3 ≠ −12` bounds the
*resulting* exponent away from −12, not the current one.  The particular
instance of the claim holds: incrementing the ones digit of
`(999.0, 0)` yields `(1.0, 3)`. -/
theorem C1_renormalization :
    (∀ ns : ℚ, ∀ exp : ℤ, renorm_inc ns exp =
      if 1000 ≤ ns then (ns / 1000, exp + 3)
      else if 0 < |ns| ∧ |ns| < 1 then (ns * 1000, exp - 3)
      else (ns, exp)) ∧
    (∀ ns : ℚ, ∀ exp : ℤ, renorm_dec ns exp =
      if ns ≤ -1000 then (ns / 1000, exp + 3)
      else if 0 < ns ∧ ns < 1 ∧ exp ≠ -9 then (ns * 1000, exp - 3)
      else (ns, exp)) ∧
    increase_val B_wide ⟨999, 0⟩ (some (2, 3)) v999 = some ⟨1, 3⟩ := by
  refine ⟨?_, ?_, ?_⟩
  · intro ns exp
    unfold renorm_inc
    by_cases ha : (1000 : ℚ) ≤ ns
    · rw [if_pos ha, if_pos ha]
    · rw [if_neg ha, if_neg ha]
      by_cases hb : ((-1 : ℚ) < ns ∧ ns < 0) ∨ ((0 : ℚ) < ns ∧ ns < 1)
      · have hb2 : 0 < |ns| ∧ |ns| < 1 := by
          rcases hb with ⟨hx1, hx2⟩ | ⟨hx1, hx2⟩
          · rw [abs_of_neg hx2]; constructor <;> linarith
          · rw [abs_of_pos hx1]; exact ⟨hx1, hx2⟩
        rw [if_pos hb, if_pos hb2]
      · have hb2 : ¬ (0 < |ns| ∧ |ns| < 1) := by
          rintro ⟨hx1, hx2⟩
          apply hb
          have habs := abs_lt.mp hx2
          rcases lt_trichotomy ns 0 with h | h | h
          · exact Or.inl ⟨habs.1, h⟩
          · rw [h] at hx1; simp at hx1
          · exact Or.inr ⟨h, habs.2⟩
        rw [if_neg hb, if_neg hb2]
  · intro ns exp
    unfold renorm_dec
    by_cases ha : ns ≤ (-1000 : ℚ)
    · rw [if_pos ha, if_pos ha]
    · rw [if_neg ha, if_neg ha]
      by_cases hb : ns < 1 ∧ ns > 0 ∧ exp - 3 ≠ -12
      · have hb2 : 0 < ns ∧ ns < 1 ∧ exp ≠ -9 :=
          ⟨hb.2.1, hb.1, fun hc => hb.2.2 (by omega)⟩
        rw [if_pos hb, if_pos hb2]
      · have hb2 : ¬ (0 < ns ∧ ns < 1 ∧ exp ≠ -9) := by
          rintro ⟨hx1, hx2, hx3⟩
          exact hb ⟨hx2, hx1, fun hc => hx3 (by omega)⟩
        rw [if_neg hb, if_neg hb2]
  · have hnum : numeric_at v999 (sel_pos (some (2, 3))) = true := by decide
    have hstep : get_step (sel_pos (some (2, 3))) v999 = (10 : ℚ) ^ (0 : ℤ) := rfl
    have hcand : inc_candidate ⟨999, 0⟩ (some (2, 3)) v999 = ⟨1, 3⟩ := by
      unfold inc_candidate
      rw [hstep]
      have h1 : (999 : ℚ) + (10 : ℚ) ^ (0 : ℤ) = 1000 := by norm_num
      rw [h1]
      unfold renorm_inc
      rw [if_pos (by norm_num : (1000 : ℚ) ≥ 1000)]
      norm_num
    have hib : B_wide.in_bounds ((⟨1, 3⟩ : ExponentialNumber).to_f64) = true := by
      rw [in_bounds_iff]
      constructor <;> norm_num [ExponentialNumber.to_f64, B_wide]
    rw [increase_val_numeric hnum, hcand, hib]
    simp

/-- C1 counterexample: decrementing the ones digit of `(1.5, −9)` (buffer
`"1.500 nV"`) gives `new_sig = 0.5` with `0 < |0.5| < 1` and exponent
`−9 ≠ −12`, so the claimed rule demands `(500, −12)`; the code's guard
`exp − 3 ≠ −12` blocks the renormalization and `(0.5, −9)` is emitted. -/
theorem C1_counterexample :
    numeric_at v15 (sel_pos none) = true ∧
    get_step (sel_pos none) v15 = 1 ∧
    decrease_val B_wide ⟨3 / 2, -9⟩ none v15 = some ⟨1 / 2, -9⟩ ∧
    renorm_claimed (3 / 2 - 1) (-9) = ((500 : ℚ), (-12 : ℤ)) ∧
    ((⟨1 / 2, -9⟩ : ExponentialNumber) ≠ ⟨500, -12⟩) := by
  refine ⟨by decide, ?_, ?_, ?_, ?_⟩
  · rw [show get_step (sel_pos none) v15 = (10 : ℚ) ^ (0 : ℤ) from rfl]
    norm_num
  · have hnum : numeric_at v15 (sel_pos none) = true := by decide
    have hstep : get_step (sel_pos none) v15 = (10 : ℚ) ^ (0 : ℤ) := rfl
    have hcand : dec_candidate ⟨3 / 2, -9⟩ none v15 = ⟨1 / 2, -9⟩ := by
      unfold dec_candidate
      rw [hstep]
      have h1 : (3 : ℚ) / 2 - (10 : ℚ) ^ (0 : ℤ) = 1 / 2 := by norm_num
      rw [h1]
      rw [renorm_dec_id (by norm_num) (by rintro ⟨-, -, hc⟩; exact hc rfl)]
    have hib : B_wide.in_bounds ((⟨1 / 2, -9⟩ : ExponentialNumber).to_f64) = true := by
      rw [in_bounds_iff]
      constructor <;> norm_num [ExponentialNumber.to_f64, B_wide]
    rw [decrease_val_numeric hnum, hcand, hib]
    simp
  · unfold renorm_claimed
    have h1 : (3 : ℚ) / 2 - 1 = 1 / 2 := by norm_num
    rw [h1]
    rw [abs_of_pos (by norm_num : (0 : ℚ) < 1 / 2)]
    rw [if_neg (by norm_num), if_pos (by norm_num)]
    norm_num
  · intro h
    have := congrArg ExponentialNumber.significand h
    norm_num at this

/-! ## C2: out-of-bounds clamp emission -/

/-- C2: for ordered bounds and a step on a numeric digit, both
`increase_val` and `decrease_val` always emit a value: the
stepped-and-renormalized candidate when it is in bounds, and otherwise
exactly the relevant bound (`bounds.upper` when increasing, `bounds.lower`
when decreasing); in every case the emitted value lies in
`[lower.value, upper.value]`. -/
theorem C2_out_of_bounds_clamp (B : Bounds) (val : ExponentialNumber)
    (sel : Option (ℕ × ℕ)) (v : Value)
    (hord : B.lower.to_f64 ≤ B.upper.to_f64)
    (hnum : numeric_at v (sel_pos sel) = true) :
    ∃ wi wd,
      increase_val B val sel v = some wi ∧
      decrease_val B val sel v = some wd ∧
      (B.in_bounds (inc_candidate val sel v).to_f64 = true → wi = inc_candidate val sel v) ∧
      (¬ B.in_bounds (inc_candidate val sel v).to_f64 = true → wi = B.upper) ∧
      (B.in_bounds (dec_candidate val sel v).to_f64 = true → wd = dec_candidate val sel v) ∧
      (¬ B.in_bounds (dec_candidate val sel v).to_f64 = true → wd = B.lower) ∧
      B.lower.to_f64 ≤ wi.to_f64 ∧ wi.to_f64 ≤ B.upper.to_f64 ∧
      B.lower.to_f64 ≤ wd.to_f64 ∧ wd.to_f64 ≤ B.upper.to_f64 := by
  refine ⟨_, _, increase_val_numeric hnum, decrease_val_numeric hnum,
    fun h => by rw [if_pos h], fun h => by rw [if_neg h],
    fun h => by rw [if_pos h], fun h => by rw [if_neg h], ?_, ?_, ?_, ?_⟩
  · by_cases hib : B.in_bounds (inc_candidate val sel v).to_f64 = true
    · rw [if_pos hib]
      exact ((in_bounds_iff B _).mp hib).1
    · rw [if_neg hib]
      exact hord
  · by_cases hib : B.in_bounds (inc_candidate val sel v).to_f64 = true
    · rw [if_pos hib]
      exact ((in_bounds_iff B _).mp hib).2
    · rw [if_neg hib]
  · by_cases hib : B.in_bounds (dec_candidate val sel v).to_f64 = true
    · rw [if_pos hib]
      exact ((in_bounds_iff B _).mp hib).1
    · rw [if_neg hib]
  · by_cases hib : B.in_bounds (dec_candidate val sel v).to_f64 = true
    · rw [if_pos hib]
      exact ((in_bounds_iff B _).mp hib).2
    · rw [if_neg hib]
      exact hord

/-- Witness for C2, the spec's own example: with bounds `[0 V, 5 V]` and
current value `5.0 V`, an increment on the ones digit emits exactly
`5.0 V` — the upper bound — and not `5.0 + step`. -/
theorem C2_witness :
    B_volt5.lower.to_f64 ≤ B_volt5.upper.to_f64 ∧
    numeric_at v5 (sel_pos none) = true ∧
    increase_val B_volt5 ⟨5, 0⟩ none v5 = some (⟨5, 0⟩ : ExponentialNumber) := by
  have hord : B_volt5.lower.to_f64 ≤ B_volt5.upper.to_f64 := by
    norm_num [B_volt5, ExponentialNumber.to_f64]
  have hnum : numeric_at v5 (sel_pos none) = true := by decide
  refine ⟨hord, hnum, ?_⟩
  obtain ⟨wi, wd, hwi, hwd, h3, h4, h5, h6, hrest⟩ :=
    C2_out_of_bounds_clamp B_volt5 ⟨5, 0⟩ none v5 hord hnum
  have hcand : inc_candidate ⟨5, 0⟩ none v5 = ⟨6, 0⟩ := by
    unfold inc_candidate
    rw [show get_step (sel_pos none) v5 = (10 : ℚ) ^ (0 : ℤ) from rfl]
    have h1 : (5 : ℚ) + (10 : ℚ) ^ (0 : ℤ) = 6 := by norm_num
    rw [h1, renorm_inc_id (by norm_num) (by rintro (⟨-, hx⟩ | ⟨-, hx⟩) <;> norm_num at hx)]
  have hnib : ¬ B_volt5.in_bounds ((⟨6, 0⟩ : ExponentialNumber).to_f64) = true := by
    rw [in_bounds_iff]
    rintro ⟨-, hu⟩
    norm_num [ExponentialNumber.to_f64, B_volt5] at hu
  rw [hwi, h4 (by rw [hcand]; exact hnib)]
  rfl

/-! ## C6: digit-step round trip -/

/-- C6 (amended): incrementing then decrementing at the same digit position
returns the significand/exponent pair to its original value provided that no
renormalization fires in either step, neither intermediate value is clamped,
**and** the step size read from the rendered buffer is the same before and
after the increment (equivalently, the rendered significand keeps its
integer-digit count — a carry into a new decade changes `get_step` at the
same caret position and breaks the round trip). -/
theorem C6_digit_step_roundtrip (B : Bounds) (sig : ℚ) (exp : ℤ)
    (sel1 sel2 : Option (ℕ × ℕ)) (v1 v2 : Value)
    (hnum1 : numeric_at v1 (sel_pos sel1) = true)
    (hnum2 : numeric_at v2 (sel_pos sel2) = true)
    (hstep : get_step (sel_pos sel2) v2 = get_step (sel_pos sel1) v1)
    (hni1 : ¬ sig + get_step (sel_pos sel1) v1 ≥ 1000)
    (hni2 : ¬ ((-1 < sig + get_step (sel_pos sel1) v1 ∧ sig + get_step (sel_pos sel1) v1 < 0) ∨
               (0 < sig + get_step (sel_pos sel1) v1 ∧ sig + get_step (sel_pos sel1) v1 < 1)))
    (hb1 : B.in_bounds ((⟨sig + get_step (sel_pos sel1) v1, exp⟩ : ExponentialNumber).to_f64) = true)
    (hnd1 : ¬ sig ≤ -1000)
    (hnd2 : ¬ (sig < 1 ∧ sig > 0 ∧ exp - 3 ≠ -12))
    (hb2 : B.in_bounds ((⟨sig, exp⟩ : ExponentialNumber).to_f64) = true) :
    increase_val B ⟨sig, exp⟩ sel1 v1 = some ⟨sig + get_step (sel_pos sel1) v1, exp⟩ ∧
    decrease_val B ⟨sig + get_step (sel_pos sel1) v1, exp⟩ sel2 v2 = some ⟨sig, exp⟩ := by
  have hcand1 : inc_candidate ⟨sig, exp⟩ sel1 v1 = ⟨sig + get_step (sel_pos sel1) v1, exp⟩ := by
    unfold inc_candidate
    rw [renorm_inc_id hni1 hni2]
  have hcand2 : dec_candidate ⟨sig + get_step (sel_pos sel1) v1, exp⟩ sel2 v2 = ⟨sig, exp⟩ := by
    unfold dec_candidate
    rw [hstep]
    have h1 : sig + get_step (sel_pos sel1) v1 - get_step (sel_pos sel1) v1 = sig := by ring
    rw [h1, renorm_dec_id hnd1 hnd2]
  constructor
  · rw [increase_val_numeric hnum1, hcand1, hb1]
    simp
  · rw [decrease_val_numeric hnum2, hcand2, hb2]
    simp

/-- C6 counterexample: from `(99.0, 0)` with wide bounds, incrementing the
leftmost digit (step 10, read from `"99.000  V"`) gives `(109.0, 0)`; the
re-rendered buffer `"109.000  V"` has one more integer digit, so the step at
the same position is now 100, and decrementing gives `(9.0, 0) ≠ (99.0, 0)` —
although no renormalization fired and no clamping occurred in either step. -/
theorem C6_counterexample :
    numeric_at v99 (sel_pos none) = true ∧
    numeric_at v109 (sel_pos none) = true ∧
    get_step (sel_pos none) v99 = 10 ∧
    get_step (sel_pos none) v109 = 100 ∧
    increase_val B_sig ⟨99, 0⟩ none v99 = some ⟨109, 0⟩ ∧
    decrease_val B_sig ⟨109, 0⟩ none v109 = some ⟨9, 0⟩ ∧
    renorm_inc (99 + 10) 0 = ((109 : ℚ), (0 : ℤ)) ∧
    renorm_dec (109 - 100) 0 = ((9 : ℚ), (0 : ℤ)) ∧
    B_sig.in_bounds ((⟨109, 0⟩ : ExponentialNumber).to_f64) = true ∧
    B_sig.in_bounds ((⟨9, 0⟩ : ExponentialNumber).to_f64) = true ∧
    ((⟨9, 0⟩ : ExponentialNumber) ≠ ⟨99, 0⟩) := by
  have hs99 : get_step (sel_pos none) v99 = 10 := by
    rw [show get_step (sel_pos none) v99 = (10 : ℚ) ^ (1 : ℤ) from rfl]
    norm_num
  have hs109 : get_step (sel_pos none) v109 = 100 := by
    rw [show get_step (sel_pos none) v109 = (10 : ℚ) ^ (2 : ℤ) from rfl]
    norm_num
  have hri : renorm_inc (99 + 10) 0 = ((109 : ℚ), (0 : ℤ)) := by
    rw [show (99 : ℚ) + 10 = 109 by norm_num,
      renorm_inc_id (by norm_num) (by rintro (⟨-, hx⟩ | ⟨-, hx⟩) <;> norm_num at hx)]
  have hrd : renorm_dec (109 - 100) 0 = ((9 : ℚ), (0 : ℤ)) := by
    rw [show (109 : ℚ) - 100 = 9 by norm_num,
      renorm_dec_id (by norm_num) (by rintro ⟨hx, -⟩; norm_num at hx)]
  have hib1 : B_sig.in_bounds ((⟨109, 0⟩ : ExponentialNumber).to_f64) = true := by
    rw [in_bounds_iff]
    constructor <;> norm_num [ExponentialNumber.to_f64, B_sig]
  have hib2 : B_sig.in_bounds ((⟨9, 0⟩ : ExponentialNumber).to_f64) = true := by
    rw [in_bounds_iff]
    constructor <;> norm_num [ExponentialNumber.to_f64, B_sig]
  refine ⟨by decide, by decide, hs99, hs109, ?_, ?_, hri, hrd, hib1, hib2, ?_⟩
  · have hcand : inc_candidate ⟨99, 0⟩ none v99 = ⟨109, 0⟩ := by
      unfold inc_candidate
      rw [hs99, show (99 : ℚ) + 10 = 109 by norm_num] at *
      rw [show renorm_inc (109 : ℚ) 0 = ((109 : ℚ), (0 : ℤ)) from by
        rw [renorm_inc_id (by norm_num) (by rintro (⟨-, hx⟩ | ⟨-, hx⟩) <;> norm_num at hx)]]
    rw [increase_val_numeric (by decide), hcand, hib1]
    simp
  · have hcand : dec_candidate ⟨109, 0⟩ none v109 = ⟨9, 0⟩ := by
      unfold dec_candidate
      rw [hs109, show (109 : ℚ) - 100 = 9 by norm_num]
      rw [renorm_dec_id (by norm_num) (by rintro ⟨hx, -⟩; norm_num at hx)]
    rw [decrease_val_numeric (by decide), hcand, hib2]
    simp
  · intro h
    have := congrArg ExponentialNumber.significand h
    norm_num at this

/-- Witness for C6 (amended), the spec's example: from `(50.0, −9)` with the
scan-size bounds, incrementing then decrementing the tens digit (step 10 in
both `"50.000 nm"` and `"60.000 nm"`) returns to `(50.0, −9)`. -/
theorem C6_witness :
    increase_val B_size ⟨50, -9⟩ none v50 = some ⟨60, -9⟩ ∧
    decrease_val B_size ⟨60, -9⟩ none v60 = some ⟨50, -9⟩ := by
  have hg : get_step (sel_pos none) v50 = 10 := by
    rw [show get_step (sel_pos none) v50 = (10 : ℚ) ^ (1 : ℤ) from rfl]
    norm_num
  have h := C6_digit_step_roundtrip B_size 50 (-9) none none v50 v60
    (by decide) (by decide) rfl
    (by rw [hg]; norm_num)
    (by rw [hg]; rintro (⟨-, hx⟩ | ⟨-, hx⟩) <;> norm_num at hx)
    (by rw [hg]; rw [in_bounds_iff]; constructor <;>
      norm_num [ExponentialNumber.to_f64, B_size])
    (by norm_num)
    (by rintro ⟨hx, -⟩; norm_num at hx)
    (by rw [in_bounds_iff]; constructor <;> norm_num [ExponentialNumber.to_f64, B_size])
  rw [hg] at h
  rw [show (50 : ℚ) + 10 = 60 by norm_num] at h
  exact h

/-! ## C8: typed-character handling -/

/-- C8 (amended): a numeric keypress edits the decimal string of the
significand and the result is committed iff it parses and lies within
`[bounds.lower.significand, bounds.upper.significand]`; rejection commits
nothing.  The edit agrees with the claimed replace/insert semantics whenever
the caret case has a non-zero significand or the selection case has both
stored endpoints strictly below the string length; a selection reaching the
string length leaves the string unchanged, and a caret keypress on a zero
significand replaces the whole string with the typed character. -/
theorem C8_typed_character (B : Bounds) (sig : ℚ) (s : List Char) (cst : CState) (c : Char) :
    (∀ w, typed_char B sig s cst c = some w ↔
      (parse_f64 (typed_edit sig s cst c) = some w ∧
        B.lower.significand ≤ w ∧ w ≤ B.upper.significand)) ∧
    (∀ idx, cursor_state cst (Value.mk s) = CState.Index idx → sig ≠ 0 →
      typed_char B sig s cst c = typed_char_claimed B s cst c) ∧
    (∀ a b, cursor_state cst (Value.mk s) = CState.Selection a b →
      a < s.length → b < s.length →
      typed_char B sig s cst c = typed_char_claimed B s cst c) ∧
    (∀ a b, cursor_state cst (Value.mk s) = CState.Selection a b →
      ¬ (a < s.length ∧ b < s.length) → typed_edit sig s cst c = s) ∧
    (∀ idx, cursor_state cst (Value.mk s) = CState.Index idx → sig = 0 →
      typed_edit sig s cst c = [c]) := by
  refine ⟨?_, ?_, ?_, ?_, ?_⟩
  · intro w
    unfold typed_char commit_significand
    cases hp : parse_f64 (typed_edit sig s cst c) with
    | none => simp
    | some q =>
      simp only [Option.some.injEq]
      split_ifs with hq
      · constructor
        · intro h
          injection h with h
          subst h
          exact ⟨rfl, hq.1, hq.2⟩
        · rintro ⟨h, -⟩
          rw [h]
      · constructor
        · intro h
          exact absurd h (by simp)
        · rintro ⟨h, hw1, hw2⟩
          subst h
          exact absurd ⟨hw1, hw2⟩ hq
  · intro idx hidx hsig
    unfold typed_char typed_char_claimed typed_edit
    simp only [hidx, if_neg hsig]
  · intro a b hab ha hb
    unfold typed_char typed_char_claimed typed_edit
    simp only [hab, if_pos (And.intro ha hb)]
  · intro a b hab hcond
    unfold typed_edit
    simp only [hab, if_neg hcond]
  · intro idx hidx h0
    unfold typed_edit
    simp only [hidx, if_pos h0]

/-- C8 counterexample: significand string `"50"`, stored selection `[1, 2)`
(the final digit), typed `'7'`, bounds `[-1000, 1000]` at significand level.
The claim prescribes replacing the span: `"57"`, parsed and in bounds, so
`57` should be committed; the code's endpoint guard `end < len` fails
(`2 < 2`), the string stays `"50"`, and `50` is recommitted instead. -/
theorem C8_counterexample :
    typed_char B_sig 50 s50 (CState.Selection 1 2) '7' = some 50 ∧
    typed_char_claimed B_sig s50 (CState.Selection 1 2) '7' = some 57 ∧
    ((50 : ℚ) ≠ 57) := by
  have h1 : typed_char B_sig 50 s50 (CState.Selection 1 2) '7' =
      commit_significand B_sig
        (some (10 * (10 * 0 + (((53 : ℕ) : ℚ) - 48)) + (((48 : ℕ) : ℚ) - 48))) := rfl
  have h2 : typed_char_claimed B_sig s50 (CState.Selection 1 2) '7' =
      commit_significand B_sig
        (some (10 * (10 * 0 + (((53 : ℕ) : ℚ) - 48)) + (((55 : ℕ) : ℚ) - 48))) := rfl
  refine ⟨?_, ?_, by norm_num⟩
  · rw [h1, commit_significand_some]
    rw [if_pos (by constructor <;> norm_num [B_sig])]
    norm_num
  · rw [h2, commit_significand_some]
    rw [if_pos (by constructor <;> norm_num [B_sig])]
    norm_num

/-- Witness for C8 (amended): with the selection `[0, 1)` (both endpoints
below the length of `"50"`) the code's edit agrees with the claimed
replacement semantics. -/
theorem C8_witness :
    cursor_state (CState.Selection 0 1) (Value.mk s50) = CState.Selection 0 1 ∧
    typed_char B_sig 50 s50 (CState.Selection 0 1) '7' =
      typed_char_claimed B_sig s50 (CState.Selection 0 1) '7' :=
  ⟨by decide, (C8_typed_character B_sig 50 s50 (CState.Selection 0 1) '7').2.2.1 0 1
    (by decide) (by decide) (by decide)⟩

/-! ## C7: bounds ordering invariant -/

/-- C7: starting from ordered bounds, any sequence of `min`/`max`/`bounds`
mutator applications preserves `lower.value() ≤ upper.value()`, and every
mutator silently rejects a proposed update that would violate the ordering,
leaving the previous bounds unchanged. -/
theorem C7_bounds_ordering :
    (∀ b0 : Bounds, b0.lower.to_f64 ≤ b0.upper.to_f64 →
      ∀ us : List BoundsUpdate,
        (us.foldl apply_update b0).lower.to_f64 ≤ (us.foldl apply_update b0).upper.to_f64) ∧
    (∀ b m, b.upper.to_f64 < m.to_f64 → apply_update b (BoundsUpdate.SetMin m) = b) ∧
    (∀ b m, m.to_f64 < b.lower.to_f64 → apply_update b (BoundsUpdate.SetMax m) = b) ∧
    (∀ b nb, nb.upper.to_f64 < nb.lower.to_f64 → apply_update b (BoundsUpdate.SetBounds nb) = b) := by
  have step : ∀ b u, b.lower.to_f64 ≤ b.upper.to_f64 →
      (apply_update b u).lower.to_f64 ≤ (apply_update b u).upper.to_f64 := by
    intro b u hb
    cases u with
    | SetMin m =>
      simp only [apply_update]
      split_ifs with h
      · exact h
      · exact hb
    | SetMax m =>
      simp only [apply_update]
      split_ifs with h
      · exact h
      · exact hb
    | SetBounds nb =>
      simp only [apply_update]
      split_ifs with h
      · exact h
      · exact hb
  refine ⟨?_, ?_, ?_, ?_⟩
  · intro b0 h0 us
    induction us generalizing b0 with
    | nil => exact h0
    | cons u rest ih =>
      simp only [List.foldl_cons]
      exact ih (apply_update b0 u) (step b0 u h0)
  · intro b m h
    simp only [apply_update]
    rw [if_neg (not_le.2 h)]
  · intro b m h
    simp only [apply_update]
    rw [if_neg (not_le.2 h)]
  · intro b nb h
    simp only [apply_update]
    rw [if_neg (not_le.2 h)]

/-- Witness for C7: the voltage bounds `[0 V, 5 V]` stay ordered after a
rejected `min` proposal of `7 V` (which exceeds the upper bound). -/
theorem C7_witness :
    B_volt5.lower.to_f64 ≤ B_volt5.upper.to_f64 ∧
    (([BoundsUpdate.SetMin ⟨7, 0⟩].foldl apply_update B_volt5).lower.to_f64 ≤
      ([BoundsUpdate.SetMin ⟨7, 0⟩].foldl apply_update B_volt5).upper.to_f64) := by
  have h : B_volt5.lower.to_f64 ≤ B_volt5.upper.to_f64 := by
    norm_num [B_volt5, ExponentialNumber.to_f64]
  exact ⟨h, C7_bounds_ordering.1 B_volt5 h [BoundsUpdate.SetMin ⟨7, 0⟩]⟩

/-! ## Task-queue lemmas -/

lemma list_get?_lt {α : Type} {l : List α} {n : ℕ} {x : α}
    (h : l.get? n = some x) : n < l.length := by
  by_contra hn
  rw [List.get?_eq_none.2 (by omega)] at h
  cases h

lemma tl_inv_empty : tl_inv TaskList.empty := by
  constructor
  · intro j t h
    simp [TaskList.empty] at h
  · intro id h
    simp [TaskList.empty] at h

lemma run_msgs_none (ms : List Msg) :
    ms.foldl (fun acc m => acc.bind (fun st => update st m)) none = none := by
  induction ms with
  | nil => rfl
  | cons m rest ih => simpa [List.foldl_cons] using ih

/-- Every handler except `TaskRunning` preserves the invariant. -/
lemma tl_inv_update {s s1 : TaskList} {m : Msg} (hinv : tl_inv s)
    (hm : ∀ i, m ≠ Msg.TaskRunning i) (hup : update s m = some s1) : tl_inv s1 := by
  obtain ⟨hrun, hcur⟩ := hinv
  cases m with
  | TaskRunning idx => exact absurd rfl (hm idx)
  | Other =>
    simp only [update, Option.some.injEq] at hup
    subst hup
    exact ⟨hrun, hcur⟩
  | AddToQueue images name =>
    simp only [update, Option.some.injEq] at hup
    subst hup
    constructor
    · intro j t hj ht
      by_cases hlt : j < s.tasks.length
      · rw [List.get?_append hlt] at hj
        have h2 := hrun j t hj ht
        rw [h2]
        simp
      · rw [List.get?_append_right (by omega)] at hj
        cases hk : j - s.tasks.length with
        | zero =>
          rw [hk] at hj
          simp only [List.get?] at hj
          injection hj with hj
          rw [← hj] at ht
          cases ht
        | succ k =>
          rw [hk] at hj
          simp only [List.get?] at hj
          cases hj
    · intro id hid
      simp only at hid
      by_cases hc : s.current_task = none
      · rw [if_pos hc] at hid
        injection hid with h
        subst h
        simp only [List.length_append, List.length_cons, List.length_nil]
        omega
      · rw [if_neg hc] at hid
        have := hcur id hid
        simp only [List.length_append, List.length_cons, List.length_nil]
        omega
  | PlayPressed =>
    simp only [update] at hup
    cases hc : s.current_task with
    | none =>
      simp only [hc, Option.some.injEq] at hup
      subst hup
      exact ⟨fun j t hj ht => hc ▸ hrun j t hj ht, fun id hid => hcur id (hc ▸ hid)⟩
    | some id =>
      simp only [hc] at hup
      cases hg : s.tasks.get? id with
      | none =>
        simp only [hg] at hup
        exact Option.noConfusion hup
      | some t =>
        simp only [hg] at hup
        by_cases hidle : t.is_idle = true
        · rw [if_pos hidle] at hup
          by_cases hcont : 0 < t.content
          · rw [if_pos hcont] at hup
            simp only [Option.some.injEq] at hup
            subst hup
            constructor
            · intro j tj hj htj
              by_cases hje : j = id
              · subst hje
                rfl
              · rw [List.get?_set_ne _ _ (fun he => hje he.symm)] at hj
                have h2 := hrun j tj hj htj
                rw [hc] at h2
                injection h2 with h2
                exact absurd h2.symm hje
            · intro id2 hid2
              have hid2x : some id = some id2 := hid2
              injection hid2x with hx
              subst hx
              have h2 := hcur id hc
              simpa [List.length_set] using h2
          · rw [if_neg hcont] at hup
            cases hup
        · rw [if_neg hidle] at hup
          simp only [Option.some.injEq] at hup
          subst hup
          exact ⟨hrun, hcur⟩
  | StopPressed =>
    simp only [update] at hup
    cases hc : s.current_task with
    | none =>
      simp only [hc, Option.some.injEq] at hup
      subst hup
      exact ⟨fun j t hj ht => hc ▸ hrun j t hj ht, fun id hid => hcur id (hc ▸ hid)⟩
    | some id =>
      simp only [hc] at hup
      cases hg : s.tasks.get? id with
      | none =>
        simp only [hg] at hup
        exact Option.noConfusion hup
      | some t =>
        simp only [hg, Option.some.injEq] at hup
        subst hup
        have hidlt : id < s.tasks.length := hcur id hc
        constructor
        · intro j tj hj htj
          by_cases hje : j = id
          · subst hje
            rw [List.get?_set_eq_of_lt _ hidlt] at hj
            injection hj with hj
            rw [← hj] at htj
            cases htj
          · rw [List.get?_set_ne _ _ (fun he => hje he.symm)] at hj
            have h2 := hrun j tj hj htj
            rw [hc] at h2
            injection h2 with h2
            exact absurd h2.symm hje
        · intro id2 hid2
          simp only [Option.some.injEq] at hid2
          have hmin : Nat.min (id + 1) (s.tasks.length - 1) ≤ s.tasks.length - 1 :=
            Nat.min_le_right _ _
          simp only [List.length_set]
          omega

/-- The invariant is preserved by every `TaskRunning`-free run. -/
lemma tl_inv_run {ms : List Msg} : ∀ {s s1 : TaskList}, tl_inv s →
    (∀ i, Msg.TaskRunning i ∉ ms) → run_msgs s ms = some s1 → tl_inv s1 := by
  induction ms with
  | nil =>
    intro s s1 h hm hr
    simp only [run_msgs, List.foldl_nil, Option.some.injEq] at hr
    subst hr
    exact h
  | cons m rest ih =>
    intro s s1 h hm hr
    simp only [run_msgs, List.foldl_cons] at hr
    have hb : (some s).bind (fun st => update st m) = update s m := rfl
    rw [hb] at hr
    cases hu : update s m with
    | none =>
      rw [hu, run_msgs_none rest] at hr
      cases hr
    | some s2 =>
      rw [hu] at hr
      have hm1 : ∀ i, m ≠ Msg.TaskRunning i := by
        intro i he
        exact hm i (he ▸ List.mem_cons_self m rest)
      have hm2 : ∀ i, Msg.TaskRunning i ∉ rest := by
        intro i hmem
        exact hm i (List.mem_cons_of_mem m hmem)
      exact ih (tl_inv_update h hm1 hu) hm2 hr

lemma tl_inv_at_most_one {s : TaskList} (h : tl_inv s) : at_most_one_running s := by
  intro j1 j2 t1 t2 h1 h2 hr1 hr2
  have e1 := h.1 j1 t1 h1 hr1
  have e2 := h.1 j2 t2 h2 hr2
  rw [e1] at e2
  injection e2

/-! ## C3: single active job -/

/-- C3 (amended): in every state reachable from the empty queue by
`AddToQueue`/`PlayPressed`/`StopPressed` (and the task-list-neutral
messages), at most one job is `Running`; and `start_current` twice in a row
on the same current job transitions it to `Running` exactly once — the
second `PlayPressed` is a no-op because the job is no longer `Idle`.  The
restriction to `TaskRunning`-free runs is forced: the `TaskRunning(idx)`
handler sets the indexed job `Running` unconditionally and can create a
second running job (see the counterexample). -/
theorem C3_single_active_job :
    (∀ ms s1, (∀ i, Msg.TaskRunning i ∉ ms) → run_msgs TaskList.empty ms = some s1 →
      at_most_one_running s1) ∧
    (∀ s id t, s.current_task = some id → s.tasks.get? id = some t →
      t.state = TaskState.Idle → 0 < t.content →
      ∃ s1, update s Msg.PlayPressed = some s1 ∧
        s1.tasks.get? id = some { t with state := TaskState.Running } ∧
        s1.current_task = s.current_task ∧
        update s1 Msg.PlayPressed = some s1) := by
  constructor
  · intro ms s1 hm hr
    exact tl_inv_at_most_one (tl_inv_run tl_inv_empty hm hr)
  · intro s id t hc hg hidle hcont
    have hidlt : id < s.tasks.length := list_get?_lt hg
    have hisidle : t.is_idle = true := by
      unfold Task.is_idle
      rw [hidle]
    have hset : (s.tasks.set id { t with state := TaskState.Running }).get? id =
        some { t with state := TaskState.Running } :=
      List.get?_set_eq_of_lt _ hidlt
    refine ⟨{ s with tasks := s.tasks.set id { t with state := TaskState.Running } },
      ?_, hset, rfl, ?_⟩
    · simp only [update, hc, hg, hisidle, if_pos hcont, if_true]
    · simp only [update, hc, hset]
      rw [if_neg (by unfold Task.is_idle; simp)]

/-- C3 counterexample: after enqueuing two jobs, the messages
`TaskRunning 0` and `TaskRunning 1` drive both jobs into `Running`
simultaneously — the single-active-job invariant does not survive the
`TaskRunning` handler. -/
theorem C3_counterexample :
    run_msgs TaskList.empty msgsTwoRunning = some tlTwoRunning ∧
    ¬ at_most_one_running tlTwoRunning := by
  constructor
  · rfl
  · intro h
    have h01 := h 0 1 ⟨1, "a", 0, TaskState.Running⟩ ⟨1, "b", 1, TaskState.Running⟩
      rfl rfl rfl rfl
    cases h01

/-- Witness for C3 (amended): the run `[enqueue, start]` reaches a state
with one running job, and a second `PlayPressed` on an idle one-job queue is
a no-op after the first. -/
theorem C3_witness :
    at_most_one_running tlOne ∧
    (∃ s1, update tlIdle Msg.PlayPressed = some s1 ∧
      s1.tasks.get? 0 = some ⟨1, "a", 0, TaskState.Running⟩ ∧
      s1.current_task = tlIdle.current_task ∧
      update s1 Msg.PlayPressed = some s1) := by
  constructor
  · exact C3_single_active_job.1 [Msg.AddToQueue 1 ("a"), Msg.PlayPressed] tlOne
      (by intro i; simp [Msg.TaskRunning.injEq]) rfl
  · exact C3_single_active_job.2 tlIdle 0 ⟨1, "a", 0, TaskState.Idle⟩ rfl rfl rfl (by decide)

/-! ## C4: stop_current -/

/-- C4: whenever a current job exists (with its index valid, as it is in
every reachable state), `StopPressed` sets that job's state to
`Failed("Interrupted by user.")` and sets `current` to
`min(current + 1, len − 1)`; when the current job is the only job, `current`
stays unchanged at index 0. -/
theorem C4_stop_current (s : TaskList) (id : ℕ) (t : Task)
    (hc : s.current_task = some id) (hg : s.tasks.get? id = some t) :
    ∃ s1, update s Msg.StopPressed = some s1 ∧
      s1.tasks.get? id = some { t with state := TaskState.Failed ("Interrupted by user.") } ∧
      s1.current_task = some (Nat.min (id + 1) (s.tasks.length - 1)) ∧
      (s.tasks.length = 1 → s1.current_task = s.current_task) := by
  have hidlt : id < s.tasks.length := list_get?_lt hg
  refine ⟨{ tasks := s.tasks.set id { t with state := TaskState.Failed ("Interrupted by user.") },
            current_task := some (Nat.min (id + 1) (s.tasks.length - 1)) },
    ?_, List.get?_set_eq_of_lt _ hidlt, rfl, ?_⟩
  · simp only [update, hc, hg]
  · intro hlen
    have hid0 : id = 0 := by omega
    subst hid0
    rw [hc, hlen]
    rfl

/-- Witness for C4: stopping the only job of a one-job queue marks it
`Failed("Interrupted by user.")` and leaves `current` at index 0. -/
theorem C4_witness :
    tlOne.current_task = some 0 ∧
    (∃ s1, update tlOne Msg.StopPressed = some s1 ∧
      s1.tasks.get? 0 = some ⟨1, "a", 0, TaskState.Failed ("Interrupted by user.")⟩ ∧
      s1.current_task = some 0 ∧ s1.current_task = tlOne.current_task) := by
  refine ⟨rfl, ?_⟩
  obtain ⟨s1, h1, h2, h3, h4⟩ :=
    C4_stop_current tlOne 0 ⟨1, "a", 0, TaskState.Running⟩ rfl rfl
  exact ⟨s1, h1, h2, by rw [h3]; rfl, h4 rfl⟩

end StmRs
